import Mathlib

/-!
Shallow embedding of the reactivity core of Zog.js, a client-side reactive
state-and-template engine. The repository holds several near-duplicate
evolutionary snapshots of the same module:

* `src/unnamed/part_001` — the `v0.4.8` snapshot;
* `src/src/zog.js` — the `v2.0` snapshot (first half of the file) and the
  `v2.2` snapshot (second half).

Where the snapshots agree, a single Lean definition embeds the shared code.
Where they diverge (the flush loop, the expression cache, `ref`, the array
instrumentation) both variants are embedded, suffixed `001` for `v0.4.8`
and `Zog` for the `v2.x` code in `zog.js`.
-/

namespace Zog

/-- An effect object, as built by `new ReactiveEffect(fn, scheduler)`.
`id` is the monotone creation id (`this.id = effectId++`), `active` the
`this.active` flag, `hasScheduler` whether a custom `scheduler` was passed
(`computed` does this), `throws` whether running `fn` raises an exception,
and `enqueues` the ids of the subscriber effects that `fn`'s reactive writes
notify while it runs. -/
structure EffectM where
  id : Nat
  active : Bool
  hasScheduler : Bool
  throws : Bool
  enqueues : List Nat
deriving Repr, DecidableEq

/-- The module-level scheduler state: `effectQueue` (ids of queued effects in
push order), the `isFlushing` flag, and a count of the
`Promise.resolve().then(flushEffects)` calls made so far (each one is a
scheduled flush microtask). -/
structure SchedState where
  queue : List Nat
  isFlushing : Bool
  scheduled : Nat
deriving Repr, DecidableEq

/-- Look an effect object up by its id. -/
def lookupEffect (env : List EffectM) (i : Nat) : Option EffectM :=
  env.find? (fun e => e.id == i)

/-- Model of `queueEffect(effect)` — identical code in every snapshot:
push the effect unless it is already queued (dedup by identity), and if no
flush is pending schedule one and set `isFlushing`. -/
def queueEffect (i : Nat) (st : SchedState) : SchedState :=
  if i ∈ st.queue then st
  else
    let st1 : SchedState := { st with queue := st.queue ++ [i] }
    if st1.isFlushing then st1
    else { st1 with isFlushing := true, scheduled := st1.scheduled + 1 }

/-- Outcome of one `Dep.notify()` call: the new scheduler state, the ids that
were passed to `queueEffect`, and the ids whose custom scheduler was invoked
instead. -/
structure NotifyResult where
  state : SchedState
  queuedIds : List Nat
  schedCalls : List Nat
deriving Repr, DecidableEq

/-- One iteration of the `Dep.notify()` loop body, for subscriber id `i`:
skip the currently running effect (`act`), call a custom scheduler when the
effect has one, otherwise `queueEffect` it. -/
def notifyStep (env : List EffectM) (act : Option Nat) (r : NotifyResult)
    (i : Nat) : NotifyResult :=
  if act = some i then r
  else
    match lookupEffect env i with
    | none => r
    | some e =>
      if e.hasScheduler then { r with schedCalls := r.schedCalls ++ [i] }
      else { r with state := queueEffect i r.state,
                    queuedIds := r.queuedIds ++ [i] }

/-- Model of `Dep.notify()`: snapshot the subscriber set, then for each subscriber
other than the currently running effect (`act`), either call its custom
scheduler or `queueEffect` it. `subs` is the snapshot, in set insertion
order. -/
def notifyDep (env : List EffectM) (act : Option Nat) (subs : List Nat)
    (st : SchedState) : NotifyResult :=
  subs.foldl (notifyStep env act) ⟨st, [], []⟩

/-- Outcome of the `v0.4.8` `flushEffects`: final scheduler state, the ids
that ran (in order), the ids whose exception was caught and reported, and
the ids passed to `queueEffect` while the flush was running. -/
structure FlushResult where
  state : SchedState
  ran : List Nat
  reported : List Nat
  enqueuedDuring : List Nat
deriving Repr, DecidableEq

/-- Body of the `v0.4.8` flush loop for the queued id `i`:
`if (e.active) { try { e.run(); } catch (err) { report } }`.
Running the effect performs its reactive writes, i.e. notifies the deps it
wrote, with the effect itself as the active effect. -/
def flushStep001 (env : List EffectM) (r : FlushResult) (i : Nat) : FlushResult :=
  match lookupEffect env i with
  | none => r
  | some e =>
    if e.active then
      let n := notifyDep env (some i) e.enqueues r.state
      { state := n.state,
        ran := r.ran ++ [i],
        reported := r.reported ++ (if e.throws then [i] else []),
        enqueuedDuring := r.enqueuedDuring ++ n.queuedIds }
    else r

/-- The `v0.4.8` `flushEffects` (src/unnamed/part_001 lines 510-526):
copy and sort the queue by id, clear it and reset `isFlushing` BEFORE
running anything, then run each active effect under a per-effect
`try/catch` that reports the error instead of propagating it. -/
def flushEffects001 (env : List EffectM) (st : SchedState) : FlushResult :=
  let snap := List.insertionSort (· ≤ ·) st.queue
  let init : FlushResult := ⟨{ st with queue := [], isFlushing := false }, [], [], []⟩
  snap.foldl (flushStep001 env) init

/-- Outcome of the `v2.x` `flushEffects`: final scheduler state, the ids that
ran, the ids enqueued during the flush, and whether an exception escaped the
flush (propagating into the microtask continuation). -/
structure ZogFlushResult where
  state : SchedState
  ran : List Nat
  enqueuedDuring : List Nat
  escaped : Bool
deriving Repr, DecidableEq

/-- The `for (const effect of effectQueue)` loop of the `v2.x`
`flushEffects` (src/src/zog.js lines 46-59 and 903-913). The iterator reads
the live queue, so effects appended during the loop are visited; an
exception aborts the loop and escapes. `fuel` bounds the recursion and is
chosen large enough at every use. -/
def zogFlushLoop (env : List EffectM) (fuel : Nat) (st : SchedState) (i : Nat)
    (ran enq : List Nat) : SchedState × List Nat × List Nat × Bool :=
  match fuel with
  | 0 => (st, ran, enq, false)
  | fuel + 1 =>
    if h : i < st.queue.length then
      let eid := st.queue.get ⟨i, h⟩
      match lookupEffect env eid with
      | none => zogFlushLoop env fuel st (i + 1) ran enq
      | some e =>
        if e.active then
          let n := notifyDep env (some eid) e.enqueues st
          if e.throws then (n.state, ran ++ [eid], enq ++ n.queuedIds, true)
          else zogFlushLoop env fuel n.state (i + 1) (ran ++ [eid]) (enq ++ n.queuedIds)
        else zogFlushLoop env fuel st (i + 1) ran enq
    else (st, ran, enq, false)

/-- The `v2.0`/`v2.2` `flushEffects` (src/src/zog.js lines 46-59, 903-913):
`try { sort in place; for (const effect of effectQueue) if (effect.active)
effect.run(); } finally { effectQueue = []; isFlushing = false; }`.
There is no per-effect catch: the first exception aborts the loop, the
`finally` block discards the queue, and the exception escapes. -/
def zogFlushEffects (env : List EffectM) (fuel : Nat) (st : SchedState) :
    ZogFlushResult :=
  let sorted := List.insertionSort (· ≤ ·) st.queue
  let out := zogFlushLoop env fuel { st with queue := sorted } 0 [] []
  ⟨{ out.1 with queue := [], isFlushing := false }, out.2.1, out.2.2.1, out.2.2.2⟩

/-- Performs `n` synchronous writes to a reactive source whose dep currently has the
subscriber snapshot `subs`, performed outside any running effect (so the
active effect is `none`); each write calls `dep.notify()` once. -/
def writeN (env : List EffectM) (subs : List Nat) : Nat → SchedState → SchedState
  | 0, st => st
  | n + 1, st => writeN env subs n (notifyDep env none subs st).state

/-- State of a `computed(getter)` cell: the cached value (`none` before the
first run, like the JS `undefined`) and the `dirty` flag (initially true:
`let value, dirty = true`). -/
structure ComputedState (α : Type) where
  value : Option α
  dirty : Bool
deriving Repr, DecidableEq

/-- The scheduler that `computed` installs on its inner effect
(part_001 lines 894-899, zog.js lines 337-339 and 1132-1134):
`() => { if (!dirty) { dirty = true; dep.notify(); } }`.
Returns the new state, whether `dep.notify()` was called, and the number of
getter runs it performed (none: the scheduler never reruns the getter). -/
def computedSchedule (s : ComputedState α) : ComputedState α × Bool × Nat :=
  if s.dirty then (s, false, 0) else ({ s with dirty := true }, true, 0)

/-- Result of reading `.value` of a computed: the new cell state, the value
returned, the number of getter runs performed, and whether `dep.depend()`
was called on the computed's own Dep. -/
structure ComputedReadResult (α : Type) where
  state : ComputedState α
  result : Option α
  getterRuns : Nat
  depended : Bool
deriving Repr, DecidableEq

/-- The `get value()` accessor of `computed` (part_001 lines 905-913, zog.js lines
343-347 and 1138-1142): `if (dirty) { value = effect.run(); dirty = false; }
dep.depend(); return value;`. `g` is the value the getter currently
computes. -/
def computedReadValue (g : α) (s : ComputedState α) : ComputedReadResult α :=
  if s.dirty then ⟨⟨some g, false⟩, some g, 1, true⟩
  else ⟨s, s.value, 0, true⟩

/-- Performs `n` consecutive reads of `.value` with no dependency change in between
(the getter would produce `g` throughout); returns the final state and the
total number of getter runs. -/
def computedReadSeq (g : α) : Nat → ComputedState α → ComputedState α × Nat
  | 0, s => (s, 0)
  | n + 1, s =>
    let r := computedReadValue g s
    let rest := computedReadSeq g n r.state
    (rest.1, r.getterRuns + rest.2)

/-- A Ref cell: the closure variable `val` holding the current value. -/
structure RefState (α : Type) where
  val : α
deriving Repr, DecidableEq

/-- The `set value(v)` accessor of `ref` (zog.js lines 298-306):
`if (!Object.is(v, val)) { val = v; dep.notify(); } }`. `objIs` models the
host primitive `Object.is`; `subs` is the subscriber snapshot of the Ref's
own Dep. Returns the new cell and the outcome of the (possible) notify. -/
def refSetValue (objIs : α → α → Bool) (env : List EffectM) (subs : List Nat)
    (s : RefState α) (v : α) (st : SchedState) : RefState α × NotifyResult :=
  if objIs v s.val then (s, ⟨st, [], []⟩)
  else (⟨v⟩, notifyDep env none subs st)

/-- A JavaScript value as seen by the reactive layer: a primitive, a plain
raw object or array (identified by its object identity `oid`), an object
carrying the `_isRef` marker (identified likewise), or a reactive `Proxy`
(identified by `pid`; its `IS_REACTIVE` probe answers true). -/
inductive JsVal where
  | prim (n : Int)
  | obj (oid : Nat)
  | refObj (oid : Nat)
  | proxy (pid : Nat)
deriving Repr, DecidableEq

/-- The `isObj(v)` helper: `v && typeof v === 'object'`. Refs and proxies are objects
too. -/
def isObj : JsVal → Bool
  | .prim _ => false
  | _ => true

/-- The `v._isRef` probe — true exactly on Ref-shaped objects. -/
def isRefMarked : JsVal → Bool
  | .refObj _ => true
  | _ => false

/-- The module-level `reactiveMap` WeakMap plus an identity source for newly
constructed proxies: `cache` maps the identity of a raw object to the
identity of its proxy, in insertion order; `nextPid` is the next fresh proxy
identity. -/
structure ReactiveHeap where
  cache : List (Nat × Nat)
  nextPid : Nat
deriving Repr, DecidableEq

/-- Model of `reactiveMap.get(target)`. -/
def cacheLookup (c : List (Nat × Nat)) (o : Nat) : Option Nat :=
  (c.find? (fun p => p.1 == o)).map (·.2)

/-- Model of `reactive(target)` (zog.js lines 131-296 and 980-1117, part_001 lines
668-806): a non-object is returned as-is; a value whose `IS_REACTIVE` probe
answers true is returned as-is; otherwise the cached proxy for this raw
identity is returned if one exists, else a fresh proxy is built and cached.
A Ref is an ordinary object without the `IS_REACTIVE` marker, so it takes
the same cache path as a plain object. -/
def reactiveFn (v : JsVal) (h : ReactiveHeap) : JsVal × ReactiveHeap :=
  match v with
  | .prim n => (.prim n, h)
  | .proxy pid => (.proxy pid, h)
  | .obj oid =>
    match cacheLookup h.cache oid with
    | some pid => (.proxy pid, h)
    | none => (.proxy h.nextPid, ⟨h.cache ++ [(oid, h.nextPid)], h.nextPid + 1⟩)
  | .refObj oid =>
    match cacheLookup h.cache oid with
    | some pid => (.proxy pid, h)
    | none => (.proxy h.nextPid, ⟨h.cache ++ [(oid, h.nextPid)], h.nextPid + 1⟩)

/-- The tail of the proxy `get` trap (zog.js lines 236-242 and 1065-1069),
applied to the value `res` that `Reflect.get` fetched from the raw target:
`if (res && res._isRef) return res; return isObj(res) ? reactive(res) : res;`. -/
def getTrapResult (res : JsVal) (h : ReactiveHeap) : JsVal × ReactiveHeap :=
  if isRefMarked res then (res, h)
  else if isObj res then reactiveFn res h
  else (res, h)

/-- A dependency key of one reactive array: the shared iteration dep, the
`length` dep, or the dep of one numeric index. -/
inductive DepKey where
  | iteration
  | length
  | index (i : Nat)
deriving Repr, DecidableEq

/-- The mutating array methods — the same list in every snapshot. -/
def arrayMutators : List String :=
  ["push", "pop", "shift", "unshift", "splice", "sort", "reverse", "fill", "copyWithin"]

/-- Dep keys notified by the `v2.x` mutating-method wrapper (zog.js
`createArrayInstrumentations` lines 154-167 and `createArrayMethod` lines
997-1026): after the raw method runs, only `iterationDep.notify()` and
`getDep('length').notify()` are called, whatever the method. -/
def zogMutatorNotifies (method : String) : List DepKey :=
  if method ∈ arrayMutators then [.iteration, .length] else []

/-- Dep keys notified by the `v0.4.8` mutating-method wrapper (part_001
`createArrayMethod` lines 690-726): the iteration dep, the length dep and,
for the reordering methods (`sort`, `reverse`, `shift`, `unshift`), the dep
of every numeric index of the raw array, whose length is `len`. -/
def mutatorNotifies001 (method : String) (len : Nat) : List DepKey :=
  if method ∈ arrayMutators then
    [.iteration, .length] ++
      (if method = "sort" ∨ method = "reverse" ∨ method = "shift" ∨ method = "unshift"
       then (List.range len).map .index else [])
  else []

/-- Run `dep.notify()` for each key in `keys`, where `subsOf k` is the
subscriber snapshot of the dep for key `k`, outside any running effect. -/
def notifyKeys (env : List EffectM) (subsOf : DepKey → List Nat)
    (keys : List DepKey) (st : SchedState) : SchedState :=
  keys.foldl (fun s k => (notifyDep env none (subsOf k) s).state) st

/-- A Ref object as returned by `ref(val)`: the `_isRef` marker and the
stored value. -/
structure RefObj where
  isRef : Bool
  val : JsVal
deriving Repr, DecidableEq

/-- The `v0.4.8` `ref(val)` (part_001 lines 833-869): an object or array
argument is rejected with a synchronous `throw new Error(...)`; a primitive
builds the ref. -/
def ref001 (v : JsVal) : Except String RefObj :=
  if isObj v then
    .error "ref() cannot be used with objects or arrays. Use reactive() instead."
  else .ok ⟨true, v⟩

/-- The `v0.4.8` ref value setter (part_001 lines 854-864):
assigning an object or array throws; otherwise the `Object.is`-gated write
proceeds. -/
def ref001SetValue (r : RefObj) (nv : JsVal) : Except String RefObj :=
  if isObj nv then .error "ref() value cannot be set to an object or array."
  else if nv = r.val then .ok r
  else .ok { r with val := nv }

/-- The `v2.0`/`v2.2` `ref(val)` (zog.js lines 298-306 and 1119-1127):
there is no check — any value, objects and arrays included, is stored as-is
behind the ref, with no delegation to `reactive`. -/
def zogRef (v : JsVal) : RefObj := ⟨true, v⟩

/-- The `v2.x` ref value setter: `if (!Object.is(v, val)) { val = v;
dep.notify(); }` — objects and arrays are accepted silently; the second
component tells whether the dep was notified. -/
def zogRefSetValue (r : RefObj) (nv : JsVal) : RefObj × Bool :=
  if nv = r.val then (r, false) else ({ r with val := nv }, true)

/-- Model of `keys.join(',')`. -/
def joinComma : List String → String
  | [] => ""
  | [k] => k
  | k :: ks => k ++ "," ++ joinComma ks

/-- The `v0.4.8` cache key (part_001 line 1027):
`exp + '|' + keys.join(',')`. -/
def cacheKey (exp : String) (keys : List String) : String :=
  exp ++ "|" ++ joinComma keys

/-- A compiled expression function, identified by what determines its
behavior: the expression text and the parameter-name list
`Function(...keys, "...return(" + exp + ")...")` it was built with. -/
structure Compiled where
  exp : String
  keys : List String
deriving Repr, DecidableEq

/-- The `v0.4.8` expression cache: entries in `Map` insertion order, each
holding a cache key and the compiled function stored under it. -/
structure ExpCache001 where
  entries : List (String × Compiled)
deriving Repr, DecidableEq

/-- One `evalExp(exp, scope)` call of `v0.4.8` (part_001 lines 1023-1052) at
the cache level; `keys` is `Object.keys(scope)`. On a miss the expression is
compiled against `keys`, the oldest entry is deleted when the map holds more
than 500 entries, and the new entry is stored under `cacheKey exp keys`.
Returns the new cache, the compiled function the call used, and the number
of compilations performed (0 or 1). -/
def evalExp001 (c : ExpCache001) (exp : String) (keys : List String) :
    ExpCache001 × Compiled × Nat :=
  match c.entries.find? (fun en => en.1 == cacheKey exp keys) with
  | some en => (c, en.2, 0)
  | none =>
    let kept := if c.entries.length > 500 then c.entries.drop 1 else c.entries
    (⟨kept ++ [(cacheKey exp keys, ⟨exp, keys⟩)]⟩, ⟨exp, keys⟩, 1)

/-- An evaluation request: the expression text and the variable names of the
scope it is evaluated in. -/
structure ExpReq where
  exp : String
  keys : List String
deriving Repr, DecidableEq

/-- Process a list of evaluation requests through the `v0.4.8` cache.
Returns the final cache, the compiled function each request used (in
request order), and the list of functions that were actually compiled. -/
def evalExpRun001 (c : ExpCache001) : List ExpReq → ExpCache001 × List Compiled × List Compiled
  | [] => (c, [], [])
  | r :: rs =>
    let s := evalExp001 c r.exp r.keys
    let rest := evalExpRun001 s.1 rs
    (rest.1, s.2.1 :: rest.2.1, (if s.2.2 = 1 then [s.2.1] else []) ++ rest.2.2)

/-- The `v2.2` expression cache (zog.js lines 1166-1199): keyed on the
expression text alone; each entry stores `{ fn, keys }`, the compiled
function together with the variable names of the scope it was compiled
against. -/
structure ExpCacheZog where
  entries : List (String × Compiled)
deriving Repr, DecidableEq

/-- One `evalExp(exp, scope)` call of `v2.2` at the cache level: look up by
expression text only; on a miss compile against the current scope's names,
delete the oldest entry when the map holds more than 200 entries, and store
under the expression text. On a hit the call applies the cached `fn` —
compiled for the STORED `keys` — to values read from the current scope. -/
def zogEvalExp (c : ExpCacheZog) (exp : String) (keys : List String) :
    ExpCacheZog × Compiled × Nat :=
  match c.entries.find? (fun en => en.1 == exp) with
  | some en => (c, en.2, 0)
  | none =>
    let kept := if c.entries.length > 200 then c.entries.drop 1 else c.entries
    (⟨kept ++ [(exp, ⟨exp, keys⟩)]⟩, ⟨exp, keys⟩, 1)

/-- Process a list of evaluation requests through the `v2.2` cache; same
output shape as `evalExpRun001`. -/
def zogEvalExpRun (c : ExpCacheZog) : List ExpReq → ExpCacheZog × List Compiled × List Compiled
  | [] => (c, [], [])
  | r :: rs =>
    let s := zogEvalExp c r.exp r.keys
    let rest := zogEvalExpRun s.1 rs
    (rest.1, s.2.1 :: rest.2.1, (if s.2.2 = 1 then [s.2.1] else []) ++ rest.2.2)

/-- A scope variable name that can actually reach the cache: `Function`
compilation succeeds only for identifier-like parameter names — in
particular nonempty and containing neither a vertical bar nor a comma. -/
def IdentName (s : String) : Prop :=
  s ≠ "" ∧ '|' ∉ s.data ∧ ',' ∉ s.data

instance (s : String) : Decidable (IdentName s) :=
  inferInstanceAs (Decidable (s ≠ "" ∧ '|' ∉ s.data ∧ ',' ∉ s.data))

/-- Concrete scenario for the `v2.x` flush-abort behavior: effect 0 is
active, has no custom scheduler and throws; effect 1 is active, quiet and
queued behind it. -/
def envAbort : List EffectM :=
  [⟨0, true, false, true, []⟩, ⟨1, true, false, false, []⟩]

/-- Concrete scenario for enqueue-during-flush: effect 0 enqueues effect 1
while running, then throws; effect 1 is active and quiet. -/
def envDuring : List EffectM :=
  [⟨0, true, false, true, [1]⟩, ⟨1, true, false, false, []⟩]

/-- A single plain subscriber effect (active, no custom scheduler). -/
def plainEffect : EffectM := ⟨0, true, false, false, []⟩

/-- Subscriber snapshots for the sort/reverse scenario of the repository's
own test (reactivity.test.js lines 261-271): one effect read `arr[0]` only,
so precisely the dep of index 0 has a subscriber. -/
def subsIndexZero : DepKey → List Nat :=
  fun k => if k = DepKey.index 0 then [0] else []

/-- Phase of the scheduler state during one `v0.4.8` flush that started with
`scheduled = s0`: either nothing has been enqueued since the queue was
cleared, or at least one push happened and exactly one new flush microtask
was scheduled. -/
def SchedPhase (s0 : Nat) (st : SchedState) : Prop :=
  (st.queue = [] ∧ st.isFlushing = false ∧ st.scheduled = s0) ∨
  (st.isFlushing = true ∧ st.scheduled = s0 + 1)

/-- Invariant carried through the `v0.4.8` flush loop: everything passed to
`queueEffect` so far now sits in the (fresh) queue, and the scheduler state
is in a legal phase. -/
def FlushInv (s0 : Nat) (r : FlushResult) : Prop :=
  (∀ j ∈ r.enqueuedDuring, j ∈ r.state.queue) ∧ SchedPhase s0 r.state

/-- Well-formedness of the `v0.4.8` expression cache: every entry is stored
under the cache key of the pair it was compiled for, and its parameter
names are identifier-like. -/
def CacheWF (c : ExpCache001) : Prop :=
  ∀ en ∈ c.entries, en.1 = cacheKey en.2.exp en.2.keys ∧ ∀ s ∈ en.2.keys, IdentName s

theorem queueEffect_mem_self (i : Nat) (st : SchedState) :
    i ∈ (queueEffect i st).queue := by
  unfold queueEffect
  by_cases hi : i ∈ st.queue
  · simp [hi]
  · by_cases hf : st.isFlushing <;> simp [hi, hf]

theorem queueEffect_mem_mono (i : Nat) {j : Nat} {st : SchedState}
    (h : j ∈ st.queue) : j ∈ (queueEffect i st).queue := by
  unfold queueEffect
  by_cases hi : i ∈ st.queue
  · simpa [hi]
  · by_cases hf : st.isFlushing <;> simp [hi, hf, h]

theorem queueEffect_nodup (i : Nat) {st : SchedState} (h : st.queue.Nodup) :
    (queueEffect i st).queue.Nodup := by
  unfold queueEffect
  by_cases hi : i ∈ st.queue
  · simpa [hi]
  · have hn : (st.queue ++ [i]).Nodup :=
      h.append (List.nodup_singleton i) (List.disjoint_singleton.2 hi)
    by_cases hf : st.isFlushing <;> simpa [hi, hf]

theorem queueEffect_phase {s0 : Nat} (i : Nat) {st : SchedState}
    (h : SchedPhase s0 st) : SchedPhase s0 (queueEffect i st) := by
  unfold queueEffect SchedPhase
  rcases h with ⟨hq, hf, hs⟩ | ⟨hf, hs⟩
  · right
    simp [hq, hf, hs]
  · by_cases hi : i ∈ st.queue
    · right
      simpa [hi] using ⟨hf, hs⟩
    · right
      simp [hi, hf, hs]

theorem foldl_preserve {β γ : Type} {P : β → Prop} {f : β → γ → β}
    (hf : ∀ b c, P b → P (f b c)) :
    ∀ (l : List γ) (b : β), P b → P (l.foldl f b) := by
  intro l
  induction l with
  | nil => intro b hb; simpa using hb
  | cons c cs ih => intro b hb; simpa using ih (f b c) (hf b c hb)

theorem notifyStep_queue_mono {env : List EffectM} {act : Option Nat} {j : Nat}
    (r : NotifyResult) (i : Nat) (h : j ∈ r.state.queue) :
    j ∈ (notifyStep env act r i).state.queue := by
  unfold notifyStep
  by_cases ha : act = some i
  · simpa [ha]
  · cases hl : lookupEffect env i with
    | none => simpa [ha, hl]
    | some e =>
      by_cases hs : e.hasScheduler
      · simpa [ha, hl, hs]
      · simpa [ha, hl, hs] using queueEffect_mem_mono i h

theorem notifyDep_queue_mono (env : List EffectM) (act : Option Nat)
    (subs : List Nat) (st : SchedState) {j : Nat} (h : j ∈ st.queue) :
    j ∈ (notifyDep env act subs st).state.queue :=
  foldl_preserve (P := fun r => j ∈ r.state.queue)
    (fun r i hr => notifyStep_queue_mono r i hr) subs ⟨st, [], []⟩ h

theorem notifyStep_queued_mem {env : List EffectM} {act : Option Nat}
    (r : NotifyResult) (i : Nat) (h : ∀ j ∈ r.queuedIds, j ∈ r.state.queue) :
    ∀ j ∈ (notifyStep env act r i).queuedIds, j ∈ (notifyStep env act r i).state.queue := by
  by_cases ha : act = some i
  · simpa [notifyStep, ha] using h
  · cases hl : lookupEffect env i with
    | none => simpa [notifyStep, ha, hl] using h
    | some e =>
      by_cases hs : e.hasScheduler
      · simpa [notifyStep, ha, hl, hs] using h
      · have he : notifyStep env act r i =
            { r with state := queueEffect i r.state, queuedIds := r.queuedIds ++ [i] } := by
          simp [notifyStep, ha, hl, hs]
        rw [he]
        intro j hj
        rcases List.mem_append.1 hj with hj1 | hj1
        · exact queueEffect_mem_mono i (h j hj1)
        · cases List.mem_singleton.1 hj1
          exact queueEffect_mem_self i r.state

theorem notifyDep_queued_mem (env : List EffectM) (act : Option Nat)
    (subs : List Nat) (st : SchedState) :
    ∀ j ∈ (notifyDep env act subs st).queuedIds,
      j ∈ (notifyDep env act subs st).state.queue :=
  foldl_preserve (P := fun r => ∀ j ∈ r.queuedIds, j ∈ r.state.queue)
    (fun r i hr => notifyStep_queued_mem r i hr) subs ⟨st, [], []⟩ (by simp)

theorem notifyStep_phase {env : List EffectM} {act : Option Nat} {s0 : Nat}
    (r : NotifyResult) (i : Nat) (h : SchedPhase s0 r.state) :
    SchedPhase s0 (notifyStep env act r i).state := by
  unfold notifyStep
  by_cases ha : act = some i
  · simpa [ha]
  · cases hl : lookupEffect env i with
    | none => simpa [ha, hl]
    | some e =>
      by_cases hs : e.hasScheduler
      · simpa [ha, hl, hs]
      · simpa [ha, hl, hs] using queueEffect_phase i h

theorem notifyDep_phase (env : List EffectM) (act : Option Nat)
    (subs : List Nat) (st : SchedState) {s0 : Nat} (h : SchedPhase s0 st) :
    SchedPhase s0 (notifyDep env act subs st).state :=
  foldl_preserve (P := fun r => SchedPhase s0 r.state)
    (fun r i hr => notifyStep_phase r i hr) subs ⟨st, [], []⟩ h

theorem notifyStep_nodup {env : List EffectM} {act : Option Nat}
    (r : NotifyResult) (i : Nat) (h : r.state.queue.Nodup) :
    (notifyStep env act r i).state.queue.Nodup := by
  unfold notifyStep
  by_cases ha : act = some i
  · simpa [ha]
  · cases hl : lookupEffect env i with
    | none => simpa [ha, hl]
    | some e =>
      by_cases hs : e.hasScheduler
      · simpa [ha, hl, hs]
      · simpa [ha, hl, hs] using queueEffect_nodup i h

theorem notifyDep_nodup (env : List EffectM) (act : Option Nat)
    (subs : List Nat) (st : SchedState) (h : st.queue.Nodup) :
    (notifyDep env act subs st).state.queue.Nodup :=
  foldl_preserve (P := fun r => r.state.queue.Nodup)
    (fun r i hr => notifyStep_nodup r i hr) subs ⟨st, [], []⟩ h

theorem flushStep001_inv {env : List EffectM} {s0 : Nat}
    (r : FlushResult) (i : Nat) (h : FlushInv s0 r) :
    FlushInv s0 (flushStep001 env r i) := by
  obtain ⟨hmem, hph⟩ := h
  cases hl : lookupEffect env i with
  | none => simpa [flushStep001, hl] using And.intro hmem hph
  | some e =>
    by_cases ha : e.active
    · have he : flushStep001 env r i =
          { state := (notifyDep env (some i) e.enqueues r.state).state,
            ran := r.ran ++ [i],
            reported := r.reported ++ (if e.throws then [i] else []),
            enqueuedDuring :=
              r.enqueuedDuring ++ (notifyDep env (some i) e.enqueues r.state).queuedIds } := by
        simp [flushStep001, hl, ha]
      rw [he]
      constructor
      · intro j hj
        rcases List.mem_append.1 hj with hj1 | hj1
        · exact notifyDep_queue_mono env (some i) e.enqueues r.state (hmem j hj1)
        · exact notifyDep_queued_mem env (some i) e.enqueues r.state j hj1
      · exact notifyDep_phase env (some i) e.enqueues r.state hph
    · simpa [flushStep001, hl, ha] using And.intro hmem hph

/-- C3 (amended, `v0.4.8` side): every effect passed to `queueEffect` while a
`v0.4.8` flush is running ends the flush sitting in the fresh queue, with
`isFlushing` set and exactly one new flush microtask scheduled — it will be
processed in that subsequent flush cycle instead of being discarded. -/
theorem flush001_enqueued_during_not_lost (env : List EffectM) (st : SchedState)
    (i : Nat) (h : i ∈ (flushEffects001 env st).enqueuedDuring) :
    i ∈ (flushEffects001 env st).state.queue ∧
    (flushEffects001 env st).state.isFlushing = true ∧
    (flushEffects001 env st).state.scheduled = st.scheduled + 1 := by
  have hrw : flushEffects001 env st =
      (List.insertionSort (· ≤ ·) st.queue).foldl (flushStep001 env)
        ⟨{ st with queue := [], isFlushing := false }, [], [], []⟩ := rfl
  have h0 : FlushInv st.scheduled
      ⟨{ st with queue := [], isFlushing := false }, [], [], []⟩ := by
    constructor
    · intro j hj
      simp at hj
    · left
      exact ⟨rfl, rfl, rfl⟩
  have hinv : FlushInv st.scheduled (flushEffects001 env st) := by
    rw [hrw]
    exact foldl_preserve (P := FlushInv st.scheduled)
      (fun r i2 hr => flushStep001_inv r i2 hr) _ _ h0
  obtain ⟨hmem, hph⟩ := hinv
  have hq := hmem i h
  refine ⟨hq, ?_⟩
  rcases hph with ⟨hnil, _, _⟩ | ⟨hf, hs⟩
  · rw [hnil] at hq
    simp at hq
  · exact ⟨hf, hs⟩

/-- C3 witness: effect 0 enqueues effect 1 while the flush runs; effect 1
ends in the pending queue with a new flush scheduled. -/
theorem flush001_enqueued_during_not_lost_witness :
    1 ∈ (flushEffects001 envDuring ⟨[0], true, 0⟩).enqueuedDuring ∧
    (1 ∈ (flushEffects001 envDuring ⟨[0], true, 0⟩).state.queue ∧
     (flushEffects001 envDuring ⟨[0], true, 0⟩).state.isFlushing = true ∧
     (flushEffects001 envDuring ⟨[0], true, 0⟩).state.scheduled = 0 + 1) :=
  ⟨by decide, flush001_enqueued_during_not_lost envDuring ⟨[0], true, 0⟩ 1 (by decide)⟩

/-- C3 counterexample (`v2.x` side): effect 1 is enqueued while the `v2.x`
flush is running (it appears in `enqueuedDuring`), yet after the flush it
never ran, the queue is empty, `isFlushing` is false and no flush microtask
was ever scheduled for it (`scheduled = 0`) — the effect is silently
discarded when the `finally` block clears the queue, contradicting the claim
that it is processed in a subsequent flush cycle. -/
theorem zogFlush_enqueued_during_discarded :
    (zogFlushEffects envDuring 10 ⟨[0], true, 0⟩).enqueuedDuring = [1] ∧
    1 ∉ (zogFlushEffects envDuring 10 ⟨[0], true, 0⟩).ran ∧
    (zogFlushEffects envDuring 10 ⟨[0], true, 0⟩).state.queue = [] ∧
    (zogFlushEffects envDuring 10 ⟨[0], true, 0⟩).state.isFlushing = false ∧
    (zogFlushEffects envDuring 10 ⟨[0], true, 0⟩).state.scheduled = 0 := by
  decide

/-- C2 (code-bug evaluation): with flush queue `[0, 1]` where effect 0
throws and effect 1 is active and quiet, the `v2.x` `flushEffects` lets the
exception escape the flush and never runs effect 1; the `v0.4.8`
`flushEffects` on the same input catches and reports the error and still
runs effect 1, which is what the claim (and the repository's own test suite)
requires. -/
theorem zogFlush_exception_blocks_siblings :
    (zogFlushEffects envAbort 10 ⟨[0, 1], true, 0⟩).escaped = true ∧
    (zogFlushEffects envAbort 10 ⟨[0, 1], true, 0⟩).ran = [0] ∧
    lookupEffect envAbort 1 = some ⟨1, true, false, false, []⟩ ∧
    (flushEffects001 envAbort ⟨[0, 1], true, 0⟩).ran = [0, 1] ∧
    (flushEffects001 envAbort ⟨[0, 1], true, 0⟩).reported = [0] := by
  decide

theorem flushFold_ran (env : List EffectM) :
    ∀ (l : List Nat) (r : FlushResult),
      (l.foldl (flushStep001 env) r).ran =
        r.ran ++ l.filter (fun i => ((lookupEffect env i).map (fun e => e.active)).getD false) := by
  intro l
  induction l with
  | nil => intro r; simp
  | cons a l2 ih =>
    intro r
    rw [List.foldl_cons, ih]
    cases hl : lookupEffect env a with
    | none => simp [flushStep001, hl, List.filter_cons]
    | some e =>
      by_cases ha : e.active
      · simp [flushStep001, hl, ha, List.filter_cons]
      · simp [flushStep001, hl, ha, List.filter_cons]

theorem notifyFold_mem {env : List EffectM} {i : Nat} {e : EffectM}
    (he : lookupEffect env i = some e) (hs : e.hasScheduler = false) :
    ∀ (subs : List Nat) (r : NotifyResult),
      i ∈ subs ∨ i ∈ r.state.queue →
      i ∈ (subs.foldl (notifyStep env none) r).state.queue := by
  intro subs
  induction subs with
  | nil =>
    intro r h
    rcases h with h | h
    · simp at h
    · simpa using h
  | cons a l ih =>
    intro r h
    rw [List.foldl_cons]
    rcases h with h | h
    · rcases List.mem_cons.1 h with rfl | hmem
      · apply ih
        right
        have hres : notifyStep env none r i =
            { r with state := queueEffect i r.state, queuedIds := r.queuedIds ++ [i] } := by
          simp [notifyStep, he, hs]
        rw [hres]
        exact queueEffect_mem_self i r.state
      · exact ih (notifyStep env none r a) (Or.inl hmem)
    · exact ih (notifyStep env none r a) (Or.inr (notifyStep_queue_mono r a h))

theorem writeN_queue_mem {env : List EffectM} {subs : List Nat} {i : Nat}
    {e : EffectM} (he : lookupEffect env i = some e)
    (hs : e.hasScheduler = false) (hin : i ∈ subs) :
    ∀ (n : Nat) (st : SchedState), 1 ≤ n ∨ i ∈ st.queue →
      i ∈ (writeN env subs n st).queue := by
  intro n
  induction n with
  | zero =>
    intro st h
    rcases h with h | h
    · omega
    · simpa [writeN] using h
  | succ m ih =>
    intro st _
    show i ∈ (writeN env subs m (notifyDep env none subs st).state).queue
    apply ih
    right
    exact notifyFold_mem he hs subs ⟨st, [], []⟩ (Or.inl hin)

theorem writeN_nodup {env : List EffectM} {subs : List Nat} :
    ∀ (n : Nat) (st : SchedState), st.queue.Nodup →
      (writeN env subs n st).queue.Nodup := by
  intro n
  induction n with
  | zero => intro st h; simpa [writeN] using h
  | succ m ih =>
    intro st h
    show (writeN env subs m (notifyDep env none subs st).state).queue.Nodup
    exact ih _ (notifyDep_nodup env none subs st h)

/-- C4: an active effect `e` without a custom scheduler that subscribes to a
reactive source is enqueued at most once by `n ≥ 1` synchronous
notifications of that source before the flush boundary (the queue holds its
id exactly once), and the subsequent `v0.4.8` flush runs it exactly once —
not `n` times. -/
theorem writes_batch_single_rerun (env : List EffectM) (e : EffectM)
    (subs : List Nat) (he : lookupEffect env e.id = some e)
    (ha : e.active = true) (hs : e.hasScheduler = false) (hin : e.id ∈ subs)
    (n : Nat) (hn : 1 ≤ n) :
    (writeN env subs n ⟨[], false, 0⟩).queue.count e.id = 1 ∧
    (flushEffects001 env (writeN env subs n ⟨[], false, 0⟩)).ran.count e.id = 1 := by
  have hmem : e.id ∈ (writeN env subs n ⟨[], false, 0⟩).queue :=
    writeN_queue_mem he hs hin n ⟨[], false, 0⟩ (Or.inl hn)
  have hnd : (writeN env subs n ⟨[], false, 0⟩).queue.Nodup :=
    writeN_nodup n ⟨[], false, 0⟩ (by simp)
  have hcount : (writeN env subs n ⟨[], false, 0⟩).queue.count e.id = 1 :=
    List.count_eq_one_of_mem hnd hmem
  refine ⟨hcount, ?_⟩
  have hran : (flushEffects001 env (writeN env subs n ⟨[], false, 0⟩)).ran =
      (List.insertionSort (· ≤ ·) (writeN env subs n ⟨[], false, 0⟩).queue).filter
        (fun i => ((lookupEffect env i).map (fun e2 => e2.active)).getD false) := by
    have hrw : flushEffects001 env (writeN env subs n ⟨[], false, 0⟩) =
        (List.insertionSort (· ≤ ·) (writeN env subs n ⟨[], false, 0⟩).queue).foldl
          (flushStep001 env)
          ⟨{ writeN env subs n ⟨[], false, 0⟩ with queue := [], isFlushing := false },
            [], [], []⟩ := rfl
    rw [hrw, flushFold_ran]
    simp
  rw [hran]
  have hp : ((lookupEffect env e.id).map (fun e2 => e2.active)).getD false = true := by
    rw [he]
    simpa using ha
  rw [List.count_filter (p := fun i => ((lookupEffect env i).map (fun e2 => e2.active)).getD false) hp]
  have hperm := List.perm_insertionSort (α := Nat) (· ≤ ·)
    (writeN env subs n ⟨[], false, 0⟩).queue
  rw [hperm.count_eq]
  exact hcount

/-- C4 witness: three synchronous writes notifying the single plain
subscriber effect enqueue it once and the flush runs it once. -/
theorem writes_batch_single_rerun_witness :
    (writeN [plainEffect] [0] 3 ⟨[], false, 0⟩).queue.count 0 = 1 ∧
    (flushEffects001 [plainEffect] (writeN [plainEffect] [0] 3 ⟨[], false, 0⟩)).ran.count 0 = 1 :=
  writes_batch_single_rerun [plainEffect] plainEffect [0] (by decide) (by decide)
    (by decide) (by decide) 3 (by decide)

theorem computedReadSeq_clean {α : Type} (g : α) :
    ∀ (n : Nat) (v : Option α), (computedReadSeq g n ⟨v, false⟩).2 = 0 := by
  intro n
  induction n with
  | zero => intro v; rfl
  | succ m ih =>
    intro v
    simp [computedReadSeq, computedReadValue, ih v]

/-- C5: the computed's scheduler performs zero getter runs, only sets the
dirty flag, and notifies the computed's own Dep precisely when the flag was
not already set; reading `.value` reruns the getter if and only if the dirty
flag is set — caching the fresh getter value and clearing the flag — always
calls `depend()` on the computed's own Dep and returns the cached value; and
any sequence of reads between dependency changes runs the getter at most
once. -/
theorem computed_lazy_cached (α : Type) (g : α) (s : ComputedState α) (n : Nat) :
    (computedSchedule s).2.2 = 0 ∧
    (computedSchedule s).1 = ⟨s.value, true⟩ ∧
    (computedSchedule s).2.1 = !s.dirty ∧
    (computedReadValue g s).getterRuns = (if s.dirty then 1 else 0) ∧
    (computedReadValue g s).state = ⟨if s.dirty then some g else s.value, false⟩ ∧
    (computedReadValue g s).depended = true ∧
    (computedReadValue g s).result = (computedReadValue g s).state.value ∧
    (computedReadSeq g n s).2 ≤ 1 := by
  obtain ⟨v, d⟩ := s
  cases d with
  | false =>
    refine ⟨rfl, rfl, rfl, rfl, rfl, rfl, rfl, ?_⟩
    simp [computedReadSeq_clean g n v]
  | true =>
    refine ⟨rfl, rfl, rfl, rfl, rfl, rfl, rfl, ?_⟩
    cases n with
    | zero => simp [computedReadSeq]
    | succ m =>
      simp [computedReadSeq, computedReadValue, computedReadSeq_clean g m (some g)]

/-- C6: assigning to a Ref a value that `Object.is` deems equal to the one
it already holds leaves the stored value unchanged and performs no
notification at all — the scheduler state is untouched, nothing is enqueued
and no custom scheduler is invoked, so zero subscriber re-runs are
triggered. -/
theorem ref_set_equal_value_no_notify (α : Type) (objIs : α → α → Bool)
    (env : List EffectM) (subs : List Nat) (s : RefState α) (w : α)
    (st : SchedState) (h : objIs w s.val = true) :
    refSetValue objIs env subs s w st = (s, ⟨st, [], []⟩) := by
  simp [refSetValue, h]

/-- C6 witness: a Ref holding 5 assigned 5 again, with a subscribed plain
effect — nothing happens. -/
theorem ref_set_equal_value_no_notify_witness :
    refSetValue (fun a b => a == b) [plainEffect] [0] (⟨5⟩ : RefState Int) 5
      ⟨[], false, 0⟩ = (⟨5⟩, ⟨⟨[], false, 0⟩, [], []⟩) :=
  ref_set_equal_value_no_notify Int (fun a b => a == b) [plainEffect] [0] ⟨5⟩ 5
    ⟨[], false, 0⟩ (by decide)

theorem cacheLookup_append_self {c : List (Nat × Nat)} {o p : Nat}
    (h : cacheLookup c o = none) : cacheLookup (c ++ [(o, p)]) o = some p := by
  induction c with
  | nil => simp [cacheLookup]
  | cons a l ih =>
    unfold cacheLookup at h ⊢
    cases hpa : (a.1 == o) with
    | true => simp [List.find?_cons, hpa] at h
    | false =>
      simp only [List.cons_append, List.find?_cons, hpa] at h ⊢
      exact ih h

theorem cacheLookup_none_not_mem {c : List (Nat × Nat)} {o : Nat}
    (h : cacheLookup c o = none) : o ∉ c.map Prod.fst := by
  intro hmem
  obtain ⟨a, ha, rfl⟩ := List.mem_map.1 hmem
  have hfind : c.find? (fun p => p.1 == a.1) = none := by
    have := h
    unfold cacheLookup at this
    exact Option.map_eq_none.mp this
  have := List.find?_eq_none.1 hfind a ha
  simp at this

/-- C7: the reactive layer maintains exactly one proxy per raw object.
Calling `reactive` twice on the same raw object returns the identical proxy,
and the second call leaves the heap untouched; calling `reactive` on a value
that is already a reactive proxy returns that value unchanged, never
double-wrapping; and every `reactive` call preserves the invariant that the
identity-keyed cache holds at most one entry per raw identity. -/
theorem reactive_single_proxy_per_raw (oid pid : Nat) (h : ReactiveHeap) (v : JsVal) :
    ((reactiveFn (.obj oid) (reactiveFn (.obj oid) h).2).1 = (reactiveFn (.obj oid) h).1 ∧
     (reactiveFn (.obj oid) (reactiveFn (.obj oid) h).2).2 = (reactiveFn (.obj oid) h).2) ∧
    reactiveFn (.proxy pid) h = (.proxy pid, h) ∧
    ((h.cache.map Prod.fst).Nodup → (((reactiveFn v h).2).cache.map Prod.fst).Nodup) := by
  refine ⟨?_, rfl, ?_⟩
  · cases hc : cacheLookup h.cache oid with
    | some pid2 => simp [reactiveFn, hc]
    | none =>
      have hc2 : cacheLookup (h.cache ++ [(oid, h.nextPid)]) oid = some h.nextPid :=
        cacheLookup_append_self hc
      simp [reactiveFn, hc, hc2]
  · intro hnd
    cases v with
    | prim m => simpa [reactiveFn]
    | proxy q => simpa [reactiveFn]
    | obj o =>
      cases hc : cacheLookup h.cache o with
      | some q => simpa [reactiveFn, hc]
      | none =>
        have hno := cacheLookup_none_not_mem hc
        simp only [reactiveFn, hc, List.map_append]
        exact hnd.append (List.nodup_singleton o) (List.disjoint_singleton.2 hno)
    | refObj o =>
      cases hc : cacheLookup h.cache o with
      | some q => simpa [reactiveFn, hc]
      | none =>
        have hno := cacheLookup_none_not_mem hc
        simp only [reactiveFn, hc, List.map_append]
        exact hnd.append (List.nodup_singleton o) (List.disjoint_singleton.2 hno)

/-- C10: the proxy get trap returns a stored Ref-shaped value exactly as it
is — neither unwrapped to its `.value` nor wrapped by the reactive layer —
while a stored plain object comes back as a reactive proxy of it and a
primitive passes straight through. -/
theorem get_trap_returns_refs_as_is (oid oid2 : Nat) (h : ReactiveHeap) (m : Int) :
    getTrapResult (.refObj oid) h = (.refObj oid, h) ∧
    (getTrapResult (.obj oid2) h).1 =
      .proxy ((cacheLookup h.cache oid2).getD h.nextPid) ∧
    getTrapResult (.prim m) h = (.prim m, h) := by
  refine ⟨rfl, ?_, rfl⟩
  show (reactiveFn (.obj oid2) h).1 = _
  cases hc : cacheLookup h.cache oid2 <;> simp [reactiveFn, hc]

/-- C8 (code-bug evaluation): in the repository's own test scenario — an
effect that read only `arr[0]` of `reactive([3, 1, 2])` and a subsequent
`arr.sort()` — the `v2.x` mutating-method wrapper notifies only the
iteration and length deps, so the index-0 subscriber is never enqueued and
the effect does not re-run; the `v0.4.8` wrapper additionally notifies every
numeric-index dep and does enqueue it. -/
theorem zog_sort_skips_index_subscribers :
    DepKey.index 0 ∉ zogMutatorNotifies "sort" ∧
    (notifyKeys [plainEffect] subsIndexZero (zogMutatorNotifies "sort")
      ⟨[], false, 0⟩).queue = [] ∧
    DepKey.index 0 ∈ mutatorNotifies001 "sort" 3 ∧
    (notifyKeys [plainEffect] subsIndexZero (mutatorNotifies001 "sort" 3)
      ⟨[], false, 0⟩).queue = [0] := by
  decide

/-- C9 (code-bug evaluation): the `v0.4.8` `ref` throws synchronously on an
object argument and on an object assignment, as the claim and the
repository's tests require, while the `v2.x` `ref` silently accepts the
object and stores it raw — no error and no delegation to the reactive-proxy
path. -/
theorem zog_ref_accepts_objects_silently :
    ref001 (JsVal.obj 7) =
      Except.error "ref() cannot be used with objects or arrays. Use reactive() instead." ∧
    ref001SetValue ⟨true, JsVal.prim 0⟩ (JsVal.obj 7) =
      Except.error "ref() value cannot be set to an object or array." ∧
    zogRef (JsVal.obj 7) = ⟨true, JsVal.obj 7⟩ ∧
    zogRefSetValue ⟨true, JsVal.prim 0⟩ (JsVal.obj 7) = (⟨true, JsVal.obj 7⟩, true) :=
  ⟨rfl, rfl, rfl, rfl⟩

theorem append_sep_last_inj {c : Char} :
    ∀ {e1 e2 j1 j2 : List Char}, c ∉ j1 → c ∉ j2 →
      e1 ++ c :: j1 = e2 ++ c :: j2 → e1 = e2 ∧ j1 = j2 := by
  intro e1
  induction e1 with
  | nil =>
    intro e2 j1 j2 h1 h2 h
    cases e2 with
    | nil => simpa using h
    | cons b bs =>
      simp only [List.nil_append, List.cons_append, List.cons.injEq] at h
      obtain ⟨rfl, rfl⟩ := h
      exact absurd (List.mem_append.2 (Or.inr (List.mem_cons_self _ _))) h1
  | cons a as ih =>
    intro e2 j1 j2 h1 h2 h
    cases e2 with
    | nil =>
      simp only [List.nil_append, List.cons_append, List.cons.injEq] at h
      obtain ⟨rfl, rfl⟩ := h
      exact absurd (List.mem_append.2 (Or.inr (List.mem_cons_self _ _))) h2
    | cons b bs =>
      simp only [List.cons_append, List.cons.injEq] at h
      obtain ⟨rfl, h⟩ := h
      obtain ⟨he, hj⟩ := ih h1 h2 h
      exact ⟨by rw [he], hj⟩

theorem append_sep_head_inj {c : Char} :
    ∀ {a1 a2 t1 t2 : List Char}, c ∉ a1 → c ∉ a2 →
      a1 ++ c :: t1 = a2 ++ c :: t2 → a1 = a2 ∧ t1 = t2 := by
  intro a1
  induction a1 with
  | nil =>
    intro a2 t1 t2 h1 h2 h
    cases a2 with
    | nil => simpa using h
    | cons b bs =>
      simp only [List.nil_append, List.cons_append, List.cons.injEq] at h
      obtain ⟨rfl, _⟩ := h
      exact absurd (List.mem_cons_self _ _) h2
  | cons a as ih =>
    intro a2 t1 t2 h1 h2 h
    cases a2 with
    | nil =>
      simp only [List.nil_append, List.cons_append, List.cons.injEq] at h
      obtain ⟨rfl, _⟩ := h
      exact absurd (List.mem_cons_self _ _) h1
    | cons b bs =>
      simp only [List.cons_append, List.cons.injEq] at h
      obtain ⟨rfl, h⟩ := h
      have h1b : c ∉ as := fun hm => h1 (List.mem_cons_of_mem _ hm)
      have h2b : c ∉ bs := fun hm => h2 (List.mem_cons_of_mem _ hm)
      obtain ⟨he, ht⟩ := ih h1b h2b h
      exact ⟨by rw [he], ht⟩

theorem joinComma_cons_cons (k k2 : String) (t : List String) :
    joinComma (k :: k2 :: t) = k ++ "," ++ joinComma (k2 :: t) := rfl

theorem joinComma_no_bar : ∀ {ks : List String},
    (∀ s ∈ ks, IdentName s) → '|' ∉ (joinComma ks).data := by
  intro ks
  induction ks with
  | nil =>
    intro _ hm
    simp [joinComma] at hm
  | cons k t ih =>
    intro h
    cases t with
    | nil =>
      exact (h k (by simp)).2.1
    | cons k2 t2 =>
      rw [joinComma_cons_cons]
      intro hmem
      rw [String.data_append, String.data_append] at hmem
      rcases List.mem_append.1 hmem with hm | hm
      · rcases List.mem_append.1 hm with hm2 | hm2
        · exact (h k (by simp)).2.1 hm2
        · have hc : ("," : String).data = [','] := rfl
          rw [hc] at hm2
          simp at hm2
      · exact ih (fun s hs => h s (List.mem_cons_of_mem _ hs)) hm

theorem joinComma_inj : ∀ {k1 k2 : List String},
    (∀ s ∈ k1, IdentName s) → (∀ s ∈ k2, IdentName s) →
    joinComma k1 = joinComma k2 → k1 = k2 := by
  have hc : ("," : String).data = [','] := rfl
  intro k1
  induction k1 with
  | nil =>
    intro k2 _ h2 h
    cases k2 with
    | nil => rfl
    | cons b t =>
      cases t with
      | nil => exact absurd h.symm (h2 b (by simp)).1
      | cons b2 t2 =>
        exfalso
        have hd := congrArg String.data h
        rw [joinComma_cons_cons, String.data_append, String.data_append, hc] at hd
        simp [joinComma] at hd
  | cons a t1 ih =>
    intro k2 h1 h2 h
    cases t1 with
    | nil =>
      cases k2 with
      | nil => exact absurd h (h1 a (by simp)).1
      | cons b t =>
        cases t with
        | nil =>
          have : a = b := h
          rw [this]
        | cons b2 t2 =>
          exfalso
          have hd := congrArg String.data h
          rw [joinComma_cons_cons, String.data_append, String.data_append, hc] at hd
          have hmem : ',' ∈ (joinComma [a]).data := by
            rw [hd]
            exact List.mem_append.2 (Or.inl (List.mem_append.2 (Or.inr (by simp))))
          exact (h1 a (by simp)).2.2 hmem
    | cons a2 t1b =>
      cases k2 with
      | nil =>
        exfalso
        have hd := congrArg String.data h
        rw [joinComma_cons_cons, String.data_append, String.data_append, hc] at hd
        simp [joinComma] at hd
      | cons b t =>
        cases t with
        | nil =>
          exfalso
          have hd := congrArg String.data h
          rw [joinComma_cons_cons, String.data_append, String.data_append, hc] at hd
          have hmem : ',' ∈ (joinComma [b]).data := by
            rw [← hd]
            exact List.mem_append.2 (Or.inl (List.mem_append.2 (Or.inr (by simp))))
          exact (h2 b (by simp)).2.2 hmem
        | cons b2 t2 =>
          have hd := congrArg String.data h
          rw [joinComma_cons_cons, joinComma_cons_cons, String.data_append,
            String.data_append, String.data_append, String.data_append, hc] at hd
          rw [List.append_assoc, List.append_assoc, List.singleton_append,
            List.singleton_append] at hd
          obtain ⟨hheq, hteq⟩ := append_sep_head_inj (h1 a (by simp)).2.2
            (h2 b (by simp)).2.2 hd
          have hab : a = b := String.ext hheq
          have htails : (a2 :: t1b) = (b2 :: t2) :=
            ih (fun s hs => h1 s (List.mem_cons_of_mem _ hs))
              (fun s hs => h2 s (List.mem_cons_of_mem _ hs)) (String.ext hteq)
          rw [hab, htails]

theorem cacheKey_inj {e1 e2 : String} {k1 k2 : List String}
    (h1 : ∀ s ∈ k1, IdentName s) (h2 : ∀ s ∈ k2, IdentName s)
    (h : cacheKey e1 k1 = cacheKey e2 k2) : e1 = e2 ∧ k1 = k2 := by
  have hd := congrArg String.data h
  have hb : ("|" : String).data = ['|'] := rfl
  simp only [cacheKey, String.data_append, hb] at hd
  rw [List.append_assoc, List.append_assoc, List.singleton_append,
    List.singleton_append] at hd
  obtain ⟨he, hj⟩ := append_sep_last_inj (joinComma_no_bar h1) (joinComma_no_bar h2) hd
  exact ⟨String.ext he, joinComma_inj h1 h2 (String.ext hj)⟩

theorem entriesKeys_not_mem_of_find_none {c : ExpCache001} {K : String}
    (hf : c.entries.find? (fun en => en.1 == K) = none) :
    K ∉ c.entries.map Prod.fst := by
  intro hmem
  obtain ⟨en, hen, hkey⟩ := List.mem_map.1 hmem
  have hne := List.find?_eq_none.1 hf en hen
  rw [hkey] at hne
  simp at hne

theorem evalExp001_hit_used {c : ExpCache001} {exp : String} {keys : List String}
    {en : String × Compiled} (hwf : CacheWF c) (hk : ∀ s ∈ keys, IdentName s)
    (hf : c.entries.find? (fun x => x.1 == cacheKey exp keys) = some en) :
    en.2 = ⟨exp, keys⟩ := by
  have hmem := List.mem_of_find?_eq_some hf
  have hbeq := List.find?_some hf
  have hkey : en.1 = cacheKey exp keys := by simpa using hbeq
  obtain ⟨hwk, hik⟩ := hwf en hmem
  have hkk : cacheKey en.2.exp en.2.keys = cacheKey exp keys := by rw [← hwk, hkey]
  obtain ⟨hA, hB⟩ := cacheKey_inj hik hk hkk
  rw [← hA, ← hB]

theorem cacheWF_append {c : ExpCache001} {exp : String} {keys : List String}
    (hwf : CacheWF c) (hk : ∀ s ∈ keys, IdentName s) :
    CacheWF ⟨c.entries ++ [(cacheKey exp keys, ⟨exp, keys⟩)]⟩ := by
  intro en hen
  rcases List.mem_append.1 hen with hm | hm
  · exact hwf en hm
  · rcases List.mem_singleton.1 hm with rfl
    exact ⟨rfl, hk⟩

theorem evalExpRun001_go : ∀ (reqs : List ExpReq) (c : ExpCache001),
    CacheWF c → (∀ r ∈ reqs, ∀ s ∈ r.keys, IdentName s) →
    c.entries.length + reqs.length ≤ 501 →
    ((evalExpRun001 c reqs).2.1 = reqs.map (fun r => (⟨r.exp, r.keys⟩ : Compiled))) ∧
    (evalExpRun001 c reqs).2.2.Nodup ∧
    (∀ p : Compiled, cacheKey p.exp p.keys ∈ c.entries.map Prod.fst →
      p ∉ (evalExpRun001 c reqs).2.2) := by
  intro reqs
  induction reqs with
  | nil =>
    intro c _ _ _
    exact ⟨rfl, List.nodup_nil, fun p _ hm => by simp [evalExpRun001] at hm⟩
  | cons r rs ih =>
    intro c hwf hk hb
    have hkr : ∀ s ∈ r.keys, IdentName s := hk r (by simp)
    have hkrs : ∀ q ∈ rs, ∀ s ∈ q.keys, IdentName s :=
      fun q hq => hk q (List.mem_cons_of_mem _ hq)
    cases hf : c.entries.find? (fun x => x.1 == cacheKey r.exp r.keys) with
    | some en =>
      have hused : en.2 = ⟨r.exp, r.keys⟩ := evalExp001_hit_used hwf hkr hf
      have hrun : evalExpRun001 c (r :: rs) =
          ((evalExpRun001 c rs).1, en.2 :: (evalExpRun001 c rs).2.1,
            (evalExpRun001 c rs).2.2) := by
        simp [evalExpRun001, evalExp001, hf]
      have hb2 : c.entries.length + rs.length ≤ 501 := by
        simp only [List.length_cons] at hb
        omega
      obtain ⟨ih1, ih2, ih3⟩ := ih c hwf hkrs hb2
      rw [hrun]
      exact ⟨by simp [hused, ih1], ih2, fun p hp => ih3 p hp⟩
    | none =>
      have hgt : ¬ (c.entries.length > 500) := by
        simp only [List.length_cons] at hb
        omega
      have hwf2 : CacheWF ⟨c.entries ++ [(cacheKey r.exp r.keys, ⟨r.exp, r.keys⟩)]⟩ :=
        cacheWF_append hwf hkr
      have hb2 : (⟨c.entries ++ [(cacheKey r.exp r.keys, ⟨r.exp, r.keys⟩)]⟩ :
          ExpCache001).entries.length + rs.length ≤ 501 := by
        simp only [List.length_append, List.length_cons, List.length_nil,
          List.length_singleton] at *
        omega
      obtain ⟨ih1, ih2, ih3⟩ :=
        ih ⟨c.entries ++ [(cacheKey r.exp r.keys, ⟨r.exp, r.keys⟩)]⟩ hwf2 hkrs hb2
      have hnotmem : cacheKey r.exp r.keys ∉ c.entries.map Prod.fst :=
        entriesKeys_not_mem_of_find_none hf
      have hrun : evalExpRun001 c (r :: rs) =
          ((evalExpRun001 ⟨c.entries ++ [(cacheKey r.exp r.keys, ⟨r.exp, r.keys⟩)]⟩ rs).1,
           (⟨r.exp, r.keys⟩ : Compiled) ::
             (evalExpRun001 ⟨c.entries ++ [(cacheKey r.exp r.keys, ⟨r.exp, r.keys⟩)]⟩ rs).2.1,
           (⟨r.exp, r.keys⟩ : Compiled) ::
             (evalExpRun001 ⟨c.entries ++ [(cacheKey r.exp r.keys, ⟨r.exp, r.keys⟩)]⟩ rs).2.2) := by
        simp [evalExpRun001, evalExp001, hf, hgt]
      rw [hrun]
      refine ⟨by simp [ih1], ?_, ?_⟩
      · refine List.nodup_cons.2 ⟨?_, ih2⟩
        apply ih3
        rw [List.map_append]
        exact List.mem_append.2 (Or.inr (by simp))
      · intro p hp hmem
        rcases List.mem_cons.1 hmem with rfl | hm
        · exact hnotmem hp
        · exact ih3 p (by rw [List.map_append]; exact List.mem_append.2 (Or.inl hp)) hm

/-- C1 (amended, `v0.4.8` side): through the `v0.4.8` evaluator cache —
keyed on `exp + '|' + keys.join(',')` — every request is evaluated with a
function compiled for exactly its own (expression, variable-name list), so
the same expression under two scopes with different variable-name sets never
shares a compiled-function cache entry; and as long as the bounded cache
cannot evict (at most 500 evaluations here), no (expression, names) pair is
ever compiled twice. Scope variable names are identifier-like, as `Function`
compilation requires. -/
theorem evalExp001_cache_keyed_on_names (reqs : List ExpReq)
    (hk : ∀ r ∈ reqs, ∀ s ∈ r.keys, IdentName s) (hb : reqs.length ≤ 500) :
    (evalExpRun001 ⟨[]⟩ reqs).2.1 = reqs.map (fun r => (⟨r.exp, r.keys⟩ : Compiled)) ∧
    (evalExpRun001 ⟨[]⟩ reqs).2.2.Nodup := by
  have h := evalExpRun001_go reqs ⟨[]⟩ (fun en hen => by simp at hen) hk
    (by simpa using Nat.le_succ_of_le hb)
  exact ⟨h.1, h.2.1⟩

/-- C1 witness: the expression `index` evaluated under names `[count]`, then
`[item, index]`, then `[count]` again — each evaluation uses the function
compiled for its own name list, and only two compilations happen. -/
theorem evalExp001_cache_keyed_on_names_witness :
    (evalExpRun001 ⟨[]⟩ [⟨"index", ["count"]⟩, ⟨"index", ["item", "index"]⟩,
        ⟨"index", ["count"]⟩]).2.1 =
      [⟨"index", ["count"]⟩, ⟨"index", ["item", "index"]⟩, ⟨"index", ["count"]⟩] ∧
    (evalExpRun001 ⟨[]⟩ [⟨"index", ["count"]⟩, ⟨"index", ["item", "index"]⟩,
        ⟨"index", ["count"]⟩]).2.2.Nodup :=
  evalExp001_cache_keyed_on_names
    [⟨"index", ["count"]⟩, ⟨"index", ["item", "index"]⟩, ⟨"index", ["count"]⟩]
    (by decide) (by decide)

/-- C1 counterexample (`v2.2` side): the `v2.2` evaluator keys its cache on
the expression text alone, so the expression `index` evaluated under a scope
with variable names `[count]` and then under a scope with the different
variable-name set `[item, index]` shares one compiled cache entry — the
second request is evaluated with the function compiled for `[count]`, not
with one compiled for its own variable-name set, contradicting the claim. -/
theorem zog_evalExp_shares_entry_across_scopes :
    (zogEvalExpRun ⟨[]⟩ [⟨"index", ["count"]⟩, ⟨"index", ["item", "index"]⟩]).2.1 =
      [⟨"index", ["count"]⟩, ⟨"index", ["count"]⟩] ∧
    (⟨"index", ["count"]⟩ : Compiled) ≠ ⟨"index", ["item", "index"]⟩ := by
  decide

end Zog
